import Mathlib

/-!
Verification development for the federated-learning coordinator in
`src/federated-faceid/examples/mnist/main_nn.py`.

The file shallowly embeds the coordination core of `train_federated`
(lines 63-127 of `main_nn.py`): worker setup, the per-round quorum
selection via `np.random.choice(range(num_users), MAX_USERS_IN_ROUND,
replace=False)`, dispatch of the current model over the per-worker duplex
pipes, the multiplexed collect loop (`while len(local_losses) !=
len(device_connections_in_round): ... for handle in wait(handles):
... recv()`), aggregation via `fd.federated_averaging`, loss reporting,
and the final termination loop over all connections.

Conventions of the embedding:
  - `Model` is an opaque parameter vector, represented as `List ℚ`
    (floating point replaced by rationals).
  - the numpy global RNG is abstracted as a stream of naturals (`Rng`);
    sampling without replacement consumes the stream.  The exact values
    produced by numpy are irrelevant to every claim below; what matters
    is that selection is a pure function of that state and yields
    distinct in-range indices.
  - worker scheduling nondeterminism is made explicit: each round takes
    the order in which the selected workers' results are drained from
    the pipes (`arrival`) as a parameter.
  - Python exceptions (`ValueError` from numpy, the aggregator's error
    on empty input) become `Except FedError`; an exception propagates
    out of `train_federated` before the termination loop runs, exactly
    as in Python.
  - code of this repository that is not under `src/`
    (`models/federated.py`: the `EdgeDevice` worker loop and
    `federated_averaging`) is modelled from the spec, marked as such in
    its doc comment.
-/

namespace FedFaceId

/-- Model parameters: an opaque snapshot, embedded as a vector of rationals. -/
abbrev Model := List ℚ

/-- Default string used for out-of-range `List.getD` reads (never hit on the
valid inputs the theorems quantify over). -/
def defaultName : String := ""

/-- Message sent back by a worker: `EdgeDeviceResult(name, model, loss)`
as received by the coordinator via `handle.recv()` (main_nn.py line 110). -/
structure EdgeDeviceResult where
  name : String
  model : Model
  loss : ℚ
deriving DecidableEq

/-- Abstraction of the numpy global RNG state: a stream of raw draws.
The program never seeds this state (only `torch.manual_seed` is called,
main_nn.py line 44), so it is an environment parameter of a run. -/
abbrev Rng := List ℕ

/-- Consume one raw draw from the RNG state. -/
def rngNext : Rng → ℕ × Rng
  | [] => (0, [])
  | x :: xs => (x, xs)

/-- Errors of the embedded run.  The first two are numpy `ValueError`s
raised by `np.random.choice(..., replace=False)`; `invalidArgument` is the
aggregator's error on empty input (spec section 4.4); `stalled` denotes the
indefinite block of a round whose arrivals never complete the quorum
(spec section 7: no timeout). -/
inductive FedError
  | negativeSize
  | sampleLargerThanPopulation
  | invalidArgument
  | stalled
deriving DecidableEq

/-- Draw `k` elements without replacement from `pool`, consuming the RNG:
each step picks an index into the remaining pool from the next raw draw and
removes the chosen element.  This is the algorithmic content of numpy's
permutation-based sampling, over the abstract RNG. -/
def drawFrom : List ℕ → ℕ → Rng → List ℕ × Rng
  | _, 0, rng => ([], rng)
  | pool, k + 1, rng =>
      let p := rngNext rng
      let i := p.1 % pool.length
      let rest := pool.eraseIdx i
      let next := drawFrom rest k p.2
      (pool.getD i 0 :: next.1, next.2)

/-- Embedding of `np.random.choice(range(n), size, replace=False)`
(main_nn.py lines 95-97): a numpy `ValueError` if `size` is negative
("negative dimensions are not allowed") or exceeds the population
("Cannot take a larger sample than population when replace=False");
otherwise `size` distinct members of `range n`, consuming the global
numpy RNG state. -/
def np_random_choice (n : ℕ) (size : ℤ) (rng : Rng) :
    Except FedError (List ℕ × Rng) :=
  if size < 0 then .error .negativeSize
  else if (n : ℤ) < size then .error .sampleLargerThanPopulation
  else .ok (drawFrom (List.range n) size.toNat rng)

lemma drawFrom_length (pool : List ℕ) (k : ℕ) (rng : Rng)
    (hk : k ≤ pool.length) : (drawFrom pool k rng).1.length = k := by
  induction k generalizing pool rng with
  | zero => simp [drawFrom]
  | succ k ih =>
      have hpos : 0 < pool.length := Nat.lt_of_lt_of_le (Nat.succ_pos k) hk
      have hi : (rngNext rng).1 % pool.length < pool.length :=
        Nat.mod_lt _ hpos
      have hrest : (pool.eraseIdx ((rngNext rng).1 % pool.length)).length
          = pool.length - 1 := List.length_eraseIdx_of_lt hi
      have hk2 : k ≤ (pool.eraseIdx ((rngNext rng).1 % pool.length)).length := by
        rw [hrest]; omega
      simp only [drawFrom, List.length_cons]
      rw [ih _ _ hk2]

lemma drawFrom_subset (pool : List ℕ) (k : ℕ) (rng : Rng)
    (hk : k ≤ pool.length) : ∀ x ∈ (drawFrom pool k rng).1, x ∈ pool := by
  induction k generalizing pool rng with
  | zero => simp [drawFrom]
  | succ k ih =>
      have hpos : 0 < pool.length := Nat.lt_of_lt_of_le (Nat.succ_pos k) hk
      have hi : (rngNext rng).1 % pool.length < pool.length :=
        Nat.mod_lt _ hpos
      have hrest : (pool.eraseIdx ((rngNext rng).1 % pool.length)).length
          = pool.length - 1 := List.length_eraseIdx_of_lt hi
      have hk2 : k ≤ (pool.eraseIdx ((rngNext rng).1 % pool.length)).length := by
        rw [hrest]; omega
      intro x hx
      simp only [drawFrom, List.mem_cons] at hx
      rcases hx with hx | hx
      · subst hx
        rw [List.getD_eq_getElem _ _ hi]
        exact List.getElem_mem hi
      · exact List.eraseIdx_subset _ _ (ih _ _ hk2 x hx)

lemma drawFrom_nodup (pool : List ℕ) (k : ℕ) (rng : Rng)
    (hk : k ≤ pool.length) (hnd : pool.Nodup) :
    (drawFrom pool k rng).1.Nodup := by
  induction k generalizing pool rng with
  | zero => simp [drawFrom]
  | succ k ih =>
      have hpos : 0 < pool.length := Nat.lt_of_lt_of_le (Nat.succ_pos k) hk
      have hi : (rngNext rng).1 % pool.length < pool.length :=
        Nat.mod_lt _ hpos
      have hrest : (pool.eraseIdx ((rngNext rng).1 % pool.length)).length
          = pool.length - 1 := List.length_eraseIdx_of_lt hi
      have hk2 : k ≤ (pool.eraseIdx ((rngNext rng).1 % pool.length)).length := by
        rw [hrest]; omega
      have hndrest : (pool.eraseIdx ((rngNext rng).1 % pool.length)).Nodup :=
        List.Nodup.eraseIdx _ hnd
      have hhead : pool.getD ((rngNext rng).1 % pool.length) 0 ∉
          pool.eraseIdx ((rngNext rng).1 % pool.length) := by
        rw [List.getD_eq_getElem _ _ hi,
          ← List.Nodup.erase_getElem hnd _ hi]
        exact List.Nodup.not_mem_erase hnd
      have htail := ih (pool.eraseIdx ((rngNext rng).1 % pool.length))
        (rngNext rng).2 hk2 hndrest
      simp only [drawFrom, List.nodup_cons]
      refine ⟨fun hmem => hhead ?_, htail⟩
      exact drawFrom_subset _ _ _ hk2 _ hmem

/-- Python `dict` as an insertion-ordered association list: keys. -/
def dictKeys {α : Type} (d : List (ℕ × α)) : List ℕ := d.map Prod.fst

/-- Python `dict.values()`: values in insertion order. -/
def dictValues {α : Type} (d : List (ℕ × α)) : List α := d.map Prod.snd

/-- Python `d[k] = v`: overwrite in place if `k` is present (keeping its
position), otherwise append at the end. -/
def dictInsert {α : Type} (k : ℕ) (v : α) (d : List (ℕ × α)) : List (ℕ × α) :=
  if k ∈ dictKeys d then d.map (fun p => if p.1 = k then (k, v) else p)
  else d ++ [(k, v)]

/-- Python `d[k]` lookup (as an `Option`). -/
def dictGet {α : Type} (d : List (ℕ × α)) (k : ℕ) : Option α :=
  (d.find? (fun p => p.1 = k)).map Prod.snd

/-- Static data of a run of `train_federated`.  `classes` is
`dataset.classes`; worker identities are the class indices
(`class_to_idx` of CIFAR10 maps each class name to its index in
`classes`).  `max_users_in_round` is `constants.MAX_USERS_IN_ROUND`, the
quorum size.  `localTrain` is the opaque Trainer collaborator: for worker
`id` and an input model it yields the updated model and the mean loss
(the spec treats local training as an excluded, opaque capability). -/
structure FedConfig where
  classes : List String
  max_users_in_round : ℤ
  num_global_epochs : ℕ
  localTrain : ℕ → Model → Model × ℚ

/-- Embedding of `class_to_idx`: the index of a class name in `classes`. -/
def class_to_idx (classes : List String) (name : String) : ℕ :=
  classes.indexOf name

/-- Modelled from the spec: the `EdgeDevice` run loop lives in
`models/federated.py`, which is not under `src/`.  Per spec section 4.3, a
worker that receives a ModelSnapshot runs local training on its own
partition and sends back `RoundResult{identity, updated model, mean loss}`
on the same channel.  `edgeDeviceReply cfg id m` is the single
`EdgeDeviceResult` worker `id` produces in response to receiving model
`m`. -/
def edgeDeviceReply (cfg : FedConfig) (id : ℕ) (m : Model) : EdgeDeviceResult :=
  { name := cfg.classes.getD id defaultName
    model := (cfg.localTrain id m).1
    loss := (cfg.localTrain id m).2 }

/-- Pointwise sum of two parameter vectors. -/
def vecAdd (a b : Model) : Model := List.zipWith (· + ·) a b

/-- Scale a parameter vector. -/
def vecScale (c : ℚ) (a : Model) : Model := a.map (fun x => c * x)

/-- Modelled from the spec: `fd.federated_averaging` lives in
`models/federated.py`, which is not under `src/`.  Per spec section 4.4 it
computes the parameter-wise arithmetic mean of the input models and fails
with InvalidArgument on an empty input. -/
def federated_averaging : List Model → Except FedError Model
  | [] => .error .invalidArgument
  | m :: ms =>
      .ok (vecScale (1 / ((ms.length : ℚ) + 1)) (ms.foldl vecAdd m))

/-- One recv: record an `EdgeDeviceResult` against the identity carried in
the result (`device_id = class_to_idx[device_result.name]`, main_nn.py
lines 112-115), into `local_models` and `local_losses`. -/
def recordResult (classes : List String) (lm : List (ℕ × Model))
    (ll : List (ℕ × ℚ)) (r : EdgeDeviceResult) :
    List (ℕ × Model) × List (ℕ × ℚ) :=
  let device_id := class_to_idx classes r.name
  (dictInsert device_id r.model lm, dictInsert device_id r.loss ll)

/-- Embedding of the collect loop (main_nn.py lines 107-115):
`while len(local_losses) != len(device_connections_in_round)`, a
multiplexed `wait` over the selected workers' handles drains the next
ready result, which is recorded against its own identity.  `queue` is the
sequence of results that will arrive, in arrival order (the scheduler's
nondeterminism, a parameter of the embedding).  `none` means the guard is
still true but no further message ever arrives: the coordinator blocks
indefinitely (spec section 7).  On exit it returns the two dicts and the
unconsumed part of the queue. -/
def collectLoop (classes : List String) (nSel : ℕ) :
    List EdgeDeviceResult → List (ℕ × Model) → List (ℕ × ℚ) →
    Option (List (ℕ × Model) × List (ℕ × ℚ) × List EdgeDeviceResult)
  | queue, lm, ll =>
      if ll.length = nSel then some (lm, ll, queue)
      else
        match queue with
        | [] => none
        | r :: rest =>
            let s := recordResult classes lm ll r
            collectLoop classes nSel rest s.1 s.2

/-- Observable events of a run, in program order. -/
inductive Event
  | select (round : ℕ) (ids : List ℕ)
  | send (round : ℕ) (id : ℕ)
  | receive (round : ℕ) (id : ℕ)
  | aggregate (round : ℕ) (models : List Model)
  | adopt (round : ℕ) (m : Model)
  | report (round : ℕ) (loss : ℚ)
  | terminate (id : ℕ)
  | join (id : ℕ)
deriving DecidableEq

/-- Outcome of a single round. -/
structure RoundOutcome where
  model : Model
  loss : ℚ
  rng : Rng
  events : List Event
deriving DecidableEq

/-- Embedding of one iteration of the round loop (main_nn.py lines
91-121): select a quorum with `np.random.choice(range(num_users),
MAX_USERS_IN_ROUND, replace=False)`, send the current model to every
selected worker, run the collect loop over the arriving results, call
`fd.federated_averaging(list(local_models.values()))`, adopt the result
as the new model, and report `sum(local_losses.values()) /
len(local_losses)`.  `arrival` lists the worker ids whose results are
drained, in arrival order; each such worker replies with
`edgeDeviceReply` to the model it was sent.  A Python exception is an
`Except.error` that aborts the run. -/
def runRound (cfg : FedConfig) (i_epoch : ℕ) (arrival : List ℕ)
    (model : Model) (rng : Rng) : Except FedError RoundOutcome :=
  match np_random_choice cfg.classes.length cfg.max_users_in_round rng with
  | .error e => .error e
  | .ok (ids, rng1) =>
      let queue := arrival.map (fun id => edgeDeviceReply cfg id model)
      match collectLoop cfg.classes ids.length queue [] [] with
      | none => .error .stalled
      | some (lm, ll, _) =>
          match federated_averaging (dictValues lm) with
          | .error e => .error e
          | .ok newModel =>
              let loss_avg := (dictValues ll).sum / (ll.length : ℚ)
              .ok { model := newModel
                    loss := loss_avg
                    rng := rng1
                    events :=
                      Event.select i_epoch ids ::
                      ids.map (Event.send i_epoch) ++
                      queue.map (fun r =>
                        Event.receive i_epoch (class_to_idx cfg.classes r.name)) ++
                      [Event.aggregate i_epoch (dictValues lm),
                       Event.adopt i_epoch newModel,
                       Event.report i_epoch loss_avg] }

/-- Outcome of the whole round loop. -/
structure RunOutcome where
  model : Model
  rng : Rng
  events : List Event
deriving DecidableEq

/-- Embedding of `for i_epoch in range(settings.num_global_epochs)`
(main_nn.py line 91): `n` rounds remain, `i_epoch` is the index of the
next one; the model produced by a round is the input of the next
(`model = fd.federated_averaging(...)` rebinding, line 118), and the
numpy RNG state is threaded through.  `arrivals i` is round `i`'s arrival
order. -/
def runRounds (cfg : FedConfig) (arrivals : ℕ → List ℕ) :
    ℕ → ℕ → Model → Rng → Except FedError RunOutcome
  | 0, _, model, rng => .ok { model := model, rng := rng, events := [] }
  | n + 1, i_epoch, model, rng =>
      match runRound cfg i_epoch (arrivals i_epoch) model rng with
      | .error e => .error e
      | .ok r =>
          match runRounds cfg arrivals n (i_epoch + 1) r.model r.rng with
          | .error e => .error e
          | .ok rest =>
              .ok { model := rest.model
                    rng := rest.rng
                    events := r.events ++ rest.events }

/-- Coordinator-side record for one worker, as created in the setup loop
(main_nn.py lines 80-89): the worker's class name, the identifier of the
`Pipe()` pair created for it (one fresh pair per loop iteration, so the
identifier is the iteration index), the index of its exclusive dataset
partition (`subsets[device_id]`), and whether `device.start()` ran. -/
structure EdgeDeviceConnection where
  name : String
  channel : ℕ
  partition : ℕ
  started : Bool
deriving DecidableEq

/-- Embedding of the setup loop (main_nn.py lines 80-89): `for device_name
in dataset.classes`, with `device_id = class_to_idx[device_name]`, create
a fresh channel pair, construct an `EdgeDevice` bound to that
identity, partition and channel half, start it, and record the connection
under `device_id`.  For CIFAR10, `class_to_idx` enumerates `classes` in
order, so the loop visits ids `0..|classes|-1` in order. -/
def setupConnections (classes : List String) : List (ℕ × EdgeDeviceConnection) :=
  (List.range classes.length).map
    (fun i => (i, { name := classes.getD i defaultName
                    channel := i
                    partition := i
                    started := true }))

/-- Embedding of the termination loop (main_nn.py lines 123-125): for
every connection in the full roster, in roster order,
`device_connection.process.terminate()`.  The code calls `terminate` only;
there is no `process.join()` call anywhere in `train_federated`, so no
`Event.join` is ever emitted. -/
def shutdownEvents (cfg : FedConfig) : List Event :=
  (dictKeys (setupConnections cfg.classes)).map Event.terminate

/-- Embedding of `train_federated` (main_nn.py lines 63-127): set up the
roster, run `num_global_epochs` rounds, then terminate every worker and
return the final model.  On a Python exception the run aborts before the
termination loop.  The returned event list is the full observable trace:
round events in program order, then the termination events. -/
def train_federated (cfg : FedConfig) (arrivals : ℕ → List ℕ)
    (model0 : Model) (rng : Rng) : Except FedError (Model × List Event) :=
  match runRounds cfg arrivals cfg.num_global_epochs 0 model0 rng with
  | .error e => .error e
  | .ok out => .ok (out.model, out.events ++ shutdownEvents cfg)

/-- Global RNG states of the process: torch's (seeded by
`torch.manual_seed`) and numpy's (never seeded by this program). -/
structure GlobalRngs where
  torchRng : ℕ
  npRng : Rng
deriving DecidableEq

/-- Embedding of `torch.manual_seed(settings.seed)` (main_nn.py line 44):
it reseeds torch's global RNG and leaves numpy's untouched. -/
def torch_manual_seed (seed : ℕ) (g : GlobalRngs) : GlobalRngs :=
  { g with torchRng := seed }

/-- Embedding of the part of `train()` (main_nn.py lines 40-55) that
determines worker selection: seed torch's RNG from the configured seed,
then call `train_federated`, whose quorum selection draws from numpy's
global RNG. -/
def train (cfg : FedConfig) (arrivals : ℕ → List ℕ) (seed : ℕ)
    (g : GlobalRngs) (model0 : Model) : Except FedError (Model × List Event) :=
  let g1 := torch_manual_seed seed g
  train_federated cfg arrivals model0 g1.npRng

/-- The sequence of per-round selections in a trace. -/
def selectionEvents (tr : List Event) : List (List ℕ) :=
  tr.filterMap (fun e =>
    match e with
    | .select _ ids => some ids
    | _ => none)

/-- The sequence of per-round selections of a whole run (`[]` if the run
aborted). -/
def runSelections (r : Except FedError (Model × List Event)) : List (List ℕ) :=
  match r with
  | .error _ => []
  | .ok (_, tr) => selectionEvents tr

/-- Round index of an event, `none` for shutdown-phase events. -/
def eventRound : Event → Option ℕ
  | .select i _ => some i
  | .send i _ => some i
  | .receive i _ => some i
  | .aggregate i _ => some i
  | .adopt i _ => some i
  | .report i _ => some i
  | .terminate _ => none
  | .join _ => none

/-- Position of an event inside its round: select, dispatch, collect,
aggregate, adopt, report. -/
def eventPhase : Event → ℕ
  | .select _ _ => 0
  | .send _ _ => 1
  | .receive _ _ => 2
  | .aggregate _ _ => 3
  | .adopt _ _ => 4
  | .report _ _ => 5
  | .terminate _ => 0
  | .join _ => 0

/-- Linear program-order key of an event in a run of `epochs` rounds:
round-`i` events occupy the band `[6i, 6i+5]`, shutdown events come after
every round. -/
def eventKey (epochs : ℕ) (e : Event) : ℕ :=
  match eventRound e with
  | some i => 6 * i + eventPhase e
  | none => 6 * epochs

/-- Predicate: the event is round `i`'s selection. -/
def isSelect (i : ℕ) : Event → Bool
  | .select j _ => j == i
  | _ => false

/-- Predicate: the event is round `i`'s aggregation. -/
def isAggregate (i : ℕ) : Event → Bool
  | .aggregate j _ => j == i
  | _ => false

/-- Predicate: the event is round `i`'s model adoption. -/
def isAdopt (i : ℕ) : Event → Bool
  | .adopt j _ => j == i
  | _ => false

lemma dictKeys_setup (classes : List String) :
    dictKeys (setupConnections classes) = List.range classes.length := by
  simp [dictKeys, setupConnections, List.map_map, Function.comp_def]

lemma np_random_choice_ok (n : ℕ) (size : ℤ) (rng : Rng) (ids : List ℕ)
    (rng2 : Rng) (h : np_random_choice n size rng = .ok (ids, rng2)) :
    (ids.length : ℤ) = size ∧ ids.Nodup ∧ ∀ x ∈ ids, x < n := by
  unfold np_random_choice at h
  by_cases hneg : size < 0
  · simp [hneg] at h
  · by_cases hbig : (n : ℤ) < size
    · simp [hneg, hbig] at h
    · simp only [hneg, hbig, if_false, Except.ok.injEq] at h
      have hsz : size.toNat ≤ (List.range n).length := by
        simp only [List.length_range]
        omega
      have hids : ids = (drawFrom (List.range n) size.toNat rng).1 := by
        rw [h]
      refine ⟨?_, ?_, ?_⟩
      · rw [hids, drawFrom_length _ _ _ hsz]
        omega
      · rw [hids]
        exact drawFrom_nodup _ _ _ hsz (List.nodup_range n)
      · intro x hx
        rw [hids] at hx
        have := drawFrom_subset _ _ _ hsz x hx
        exact List.mem_range.mp this

/-- Fixed local trainer used by the concrete witnesses: worker `id` shifts
every parameter by `id` and reports loss `id`. -/
def idTrain : ℕ → Model → Model × ℚ :=
  fun id m => (m.map (fun x => x + (id : ℚ)), (id : ℚ))

/-- Concrete configuration used by the witnesses: three classes, quorum
size 2, two global rounds. -/
def testCfg : FedConfig :=
  { classes := ["cat", "dog", "owl"]
    max_users_in_round := 2
    num_global_epochs := 2
    localTrain := idTrain }

/-- Variant of `testCfg` with quorum size 0. -/
def zeroQuorumCfg : FedConfig :=
  { classes := ["cat", "dog", "owl"]
    max_users_in_round := 0
    num_global_epochs := 1
    localTrain := idTrain }

/-- Variant of `testCfg` with quorum size 5, exceeding the roster size. -/
def bigQuorumCfg : FedConfig :=
  { classes := ["cat", "dog", "owl"]
    max_users_in_round := 5
    num_global_epochs := 1
    localTrain := idTrain }

/-- Two-class, one-round configuration used by the C4 counterexample. -/
def twoClassCfg : FedConfig :=
  { classes := ["ant", "bee"]
    max_users_in_round := 1
    num_global_epochs := 1
    localTrain := idTrain }

/-- Variant of `testCfg` with zero global epochs. -/
def zeroEpochsCfg : FedConfig :=
  { classes := ["cat", "dog", "owl"]
    max_users_in_round := 2
    num_global_epochs := 0
    localTrain := idTrain }

/-- Claim C2: for every roster of size R and every quorum size k with
1 ≤ k ≤ R, the per-round selection
(`np.random.choice(range(num_users), MAX_USERS_IN_ROUND, replace=False)`,
main_nn.py lines 95-97) returns exactly k distinct worker identities,
each a key of the roster `device_connections`, drawn without
replacement. -/
theorem selector_returns_quorum (cfg : FedConfig) (rng : Rng)
    (h1 : 1 ≤ cfg.max_users_in_round)
    (h2 : cfg.max_users_in_round ≤ (cfg.classes.length : ℤ)) :
    ∃ ids rng2,
      np_random_choice cfg.classes.length cfg.max_users_in_round rng
        = .ok (ids, rng2) ∧
      (ids.length : ℤ) = cfg.max_users_in_round ∧ ids.Nodup ∧
      ∀ x ∈ ids, x ∈ dictKeys (setupConnections cfg.classes) := by
  have hneg : ¬ cfg.max_users_in_round < 0 := by omega
  have hbig : ¬ (cfg.classes.length : ℤ) < cfg.max_users_in_round := by omega
  refine ⟨(drawFrom (List.range cfg.classes.length)
      cfg.max_users_in_round.toNat rng).1,
    (drawFrom (List.range cfg.classes.length)
      cfg.max_users_in_round.toNat rng).2, ?_, ?_⟩
  · simp [np_random_choice, hneg, hbig]
  · have hok : np_random_choice cfg.classes.length cfg.max_users_in_round rng
        = .ok ((drawFrom (List.range cfg.classes.length)
            cfg.max_users_in_round.toNat rng).1,
          (drawFrom (List.range cfg.classes.length)
            cfg.max_users_in_round.toNat rng).2) := by
      simp [np_random_choice, hneg, hbig]
    obtain ⟨hl, hnd, hmem⟩ := np_random_choice_ok _ _ _ _ _ hok
    refine ⟨hl, hnd, fun x hx => ?_⟩
    rw [dictKeys_setup]
    exact List.mem_range.mpr (hmem x hx)

/-- Witness for C2 at a concrete input: roster of size 3, quorum 2,
a concrete numpy RNG state. -/
theorem selector_returns_quorum_witness :
    ∃ ids rng2,
      np_random_choice testCfg.classes.length testCfg.max_users_in_round [5, 1]
        = .ok (ids, rng2) ∧
      (ids.length : ℤ) = testCfg.max_users_in_round ∧ ids.Nodup ∧
      ∀ x ∈ ids, x ∈ dictKeys (setupConnections testCfg.classes) :=
  selector_returns_quorum testCfg [5, 1] (by decide) (by decide)

/-- Claim C3, counterexample to the claim as stated: the claim asserts the
selection fails whenever k ≤ 0 and that in that case no aggregation
occurs.  At k = 0 (roster size 3) `np.random.choice` succeeds with the
empty selection, and the round proceeds past selection and dispatch all
the way into `fd.federated_averaging([])`, whose InvalidArgument error is
what aborts the round. -/
theorem selection_zero_quorum_counterexample :
    np_random_choice 3 0 [] = .ok ([], []) ∧
    runRound zeroQuorumCfg 0 [] [1] [] = .error .invalidArgument := by
  exact ⟨rfl, rfl⟩

/-- Claim C3 as amended: the per-round selection fails with a numpy
ValueError if the quorum size k exceeds the roster size or if k < 0, and
in either failure case the exception propagates out of the round before
any dispatch, training, or aggregation (the round aborts with exactly the
selection error).  For k = 0 the selection succeeds with an empty quorum
instead of failing. -/
theorem selection_invalid_quorum (cfg : FedConfig) (i : ℕ)
    (arrival : List ℕ) (model : Model) (rng : Rng)
    (h : cfg.max_users_in_round < 0 ∨
      (cfg.classes.length : ℤ) < cfg.max_users_in_round) :
    ∃ e, np_random_choice cfg.classes.length cfg.max_users_in_round rng
        = .error e ∧
      runRound cfg i arrival model rng = .error e := by
  by_cases hneg : cfg.max_users_in_round < 0
  · refine ⟨.negativeSize, ?_, ?_⟩
    · simp [np_random_choice, hneg]
    · simp [runRound, np_random_choice, hneg]
  · have hbig : (cfg.classes.length : ℤ) < cfg.max_users_in_round := by
      tauto
    refine ⟨.sampleLargerThanPopulation, ?_, ?_⟩
    · simp [np_random_choice, hneg, hbig]
    · simp [runRound, np_random_choice, hneg, hbig]

/-- Witness for the amended C3 at a concrete input: quorum 5 on a roster
of size 3 fails, and the round aborts with the selection error. -/
theorem selection_invalid_quorum_witness :
    ∃ e, np_random_choice bigQuorumCfg.classes.length
        bigQuorumCfg.max_users_in_round [0] = .error e ∧
      runRound bigQuorumCfg 0 [] [1] [0] = .error e :=
  selection_invalid_quorum bigQuorumCfg 0 [] [1] [0] (Or.inr (by decide))

/-- Claim C4, counterexample to the claim as stated: two runs with the
same configured seed (42) and the same roster, differing only in the
numpy global RNG state (which the program never seeds —
`torch.manual_seed` on main_nn.py line 44 touches only torch's RNG),
produce different per-round selection sequences. -/
theorem selection_not_seed_reproducible :
    runSelections
        (train twoClassCfg (fun _ => [0]) 42
          { torchRng := 0, npRng := [0, 9] } [1])
      ≠ runSelections
        (train twoClassCfg (fun _ => [1]) 42
          { torchRng := 0, npRng := [1, 9] } [1]) := by
  decide

/-- Claim C4 as amended: for any two runs with the same configured rng
seed, the same roster, and the same initial numpy global RNG state, the
whole run — in particular the sequence of per-round worker selections —
is identical.  The configured seed is passed only to
`torch.manual_seed` and does not influence selection. -/
theorem selection_reproducible_given_np_state (cfg : FedConfig)
    (arrivals : ℕ → List ℕ) (seed : ℕ) (g1 g2 : GlobalRngs) (model0 : Model)
    (h : g1.npRng = g2.npRng) :
    runSelections (train cfg arrivals seed g1 model0)
      = runSelections (train cfg arrivals seed g2 model0) := by
  unfold train torch_manual_seed
  rw [h]

/-- Witness for the amended C4 at a concrete input: equal numpy states,
different torch states. -/
theorem selection_reproducible_given_np_state_witness :
    runSelections (train testCfg (fun _ => [1, 2]) 42
        { torchRng := 0, npRng := [5, 1] } [1])
      = runSelections (train testCfg (fun _ => [1, 2]) 42
        { torchRng := 7, npRng := [5, 1] } [1]) :=
  selection_reproducible_given_np_state testCfg (fun _ => [1, 2]) 42
    { torchRng := 0, npRng := [5, 1] } { torchRng := 7, npRng := [5, 1] }
    [1] rfl

/-- Claim C10: if `num_global_epochs` is 0, the round loop body never
runs, so `train_federated` returns the input base model unchanged and its
trace consists solely of the termination events for the full roster — no
selection, dispatch, receipt, or aggregation occurs, and every worker is
still terminated. -/
theorem zero_epochs_identity (cfg : FedConfig) (arrivals : ℕ → List ℕ)
    (model0 : Model) (rng : Rng) (h : cfg.num_global_epochs = 0) :
    train_federated cfg arrivals model0 rng
      = .ok (model0, (List.range cfg.classes.length).map Event.terminate) := by
  unfold train_federated
  rw [h]
  simp [runRounds, shutdownEvents, dictKeys_setup]

/-- Witness for C10 at a concrete input. -/
theorem zero_epochs_identity_witness :
    train_federated zeroEpochsCfg (fun _ => []) [1] [5, 1]
      = .ok ([1], [Event.terminate 0, Event.terminate 1, Event.terminate 2]) :=
  zero_epochs_identity zeroEpochsCfg (fun _ => []) [1] [5, 1] rfl

lemma dictInsert_new {α : Type} (k : ℕ) (v : α) (d : List (ℕ × α))
    (h : k ∉ dictKeys d) : dictInsert k v d = d ++ [(k, v)] := by
  simp [dictInsert, h]

lemma dictValues_map {α : Type} (f : ℕ → α) (l : List ℕ) :
    dictValues (l.map (fun x => (x, f x))) = l.map f := by
  simp [dictValues, List.map_map]

lemma dictKeys_append {α : Type} (d1 d2 : List (ℕ × α)) :
    dictKeys (d1 ++ d2) = dictKeys d1 ++ dictKeys d2 := by
  simp [dictKeys]

lemma class_to_idx_getD (classes : List String) (id : ℕ)
    (hnd : classes.Nodup) (hid : id < classes.length) :
    class_to_idx classes (classes.getD id defaultName) = id := by
  show List.indexOf (classes.getD id defaultName) classes = id
  rw [List.getD_eq_getElem _ _ hid]
  exact List.indexOf_getElem hnd id hid

lemma class_to_idx_reply (cfg : FedConfig) (id : ℕ) (m : Model)
    (hnd : cfg.classes.Nodup) (hid : id < cfg.classes.length) :
    class_to_idx cfg.classes (edgeDeviceReply cfg id m).name = id :=
  class_to_idx_getD cfg.classes id hnd hid

lemma dictGet_map_self {α : Type} (f : ℕ → α) :
    ∀ (l : List ℕ) (id : ℕ), id ∈ l →
      dictGet (l.map (fun x => (x, f x))) id = some (f id) := by
  intro l
  induction l with
  | nil =>
      intro id h
      simp at h
  | cons a t ih =>
      intro id h
      by_cases hia : a = id
      · subst hia
        simp [dictGet, List.find?]
      · have hmem : id ∈ t := by
          rcases List.mem_cons.mp h with h1 | h1
          · exact absurd h1.symm hia
          · exact h1
        have hstep : dictGet ((a :: t).map (fun x => (x, f x))) id
            = dictGet (t.map (fun x => (x, f x))) id := by
          simp only [List.map_cons, dictGet]
          rw [List.find?_cons_of_neg]
          simp [hia]
        rw [hstep]
        exact ih id hmem

lemma collectLoop_complete (cfg : FedConfig) (m : Model)
    (hnd : cfg.classes.Nodup) :
    ∀ (pending : List ℕ) (lm : List (ℕ × Model)) (ll : List (ℕ × ℚ)) (nSel : ℕ),
      pending.Nodup →
      (∀ id ∈ pending, id < cfg.classes.length) →
      (∀ id ∈ pending, id ∉ dictKeys lm) →
      (∀ id ∈ pending, id ∉ dictKeys ll) →
      ll.length + pending.length = nSel →
      collectLoop cfg.classes nSel
          (pending.map (fun id => edgeDeviceReply cfg id m)) lm ll
        = some (lm ++ pending.map (fun id => (id, (cfg.localTrain id m).1)),
                ll ++ pending.map (fun id => (id, (cfg.localTrain id m).2)),
                []) := by
  intro pending
  induction pending with
  | nil =>
      intro lm ll nSel _ _ _ _ hlen
      simp only [List.length_nil, Nat.add_zero] at hlen
      simp [collectLoop, hlen]
  | cons id rest ih =>
      intro lm ll nSel hnd2 hbound hlm hll hlen
      have hguard : ¬ ll.length = nSel := by
        simp only [List.length_cons] at hlen
        omega
      have hidlt : id < cfg.classes.length := hbound id (by simp)
      have hrec : recordResult cfg.classes lm ll (edgeDeviceReply cfg id m)
          = (lm ++ [(id, (cfg.localTrain id m).1)],
             ll ++ [(id, (cfg.localTrain id m).2)]) := by
        simp only [recordResult, edgeDeviceReply,
          class_to_idx_getD cfg.classes id hnd hidlt]
        rw [dictInsert_new _ _ _ (hlm id (by simp)),
          dictInsert_new _ _ _ (hll id (by simp))]
      have hstep : collectLoop cfg.classes nSel
          ((id :: rest).map (fun id2 => edgeDeviceReply cfg id2 m)) lm ll
          = collectLoop cfg.classes nSel
            (rest.map (fun id2 => edgeDeviceReply cfg id2 m))
            (lm ++ [(id, (cfg.localTrain id m).1)])
            (ll ++ [(id, (cfg.localTrain id m).2)]) := by
        simp only [List.map_cons, collectLoop, hguard, if_false, hrec]
      rw [hstep]
      have hnd3 : rest.Nodup := (List.nodup_cons.mp hnd2).2
      have hnotin : id ∉ rest := (List.nodup_cons.mp hnd2).1
      have hres := ih (lm ++ [(id, (cfg.localTrain id m).1)])
        (ll ++ [(id, (cfg.localTrain id m).2)]) nSel hnd3
        (fun id2 h2 => hbound id2 (by simp [h2]))
        (fun id2 h2 => by
          rw [dictKeys_append]
          simp only [List.mem_append]
          rintro (hc | hc)
          · exact hlm id2 (by simp [h2]) hc
          · simp [dictKeys] at hc
            exact hnotin (hc ▸ h2))
        (fun id2 h2 => by
          rw [dictKeys_append]
          simp only [List.mem_append]
          rintro (hc | hc)
          · exact hll id2 (by simp [h2]) hc
          · simp [dictKeys] at hc
            exact hnotin (hc ▸ h2))
        (by
          simp only [List.length_append, List.length_singleton]
          simp only [List.length_cons] at hlen
          omega)
      rw [hres]
      simp [List.append_assoc]

lemma federated_averaging_ok (models : List Model) (h : models ≠ []) :
    ∃ agg, federated_averaging models = .ok agg := by
  cases models with
  | nil => exact absurd rfl h
  | cons a t => exact ⟨_, rfl⟩

lemma runRound_ok (cfg : FedConfig) (i : ℕ) (model : Model)
    (rng rng1 : Rng) (ids arrival : List ℕ) (hnd : cfg.classes.Nodup)
    (hsel : np_random_choice cfg.classes.length cfg.max_users_in_round rng
      = .ok (ids, rng1))
    (harr : arrival.Perm ids) (hne : ids ≠ []) :
    ∃ agg, federated_averaging
        (arrival.map (fun id => (cfg.localTrain id model).1)) = .ok agg ∧
      runRound cfg i arrival model rng = .ok
        { model := agg
          loss := (arrival.map (fun id => (cfg.localTrain id model).2)).sum
            / (arrival.length : ℚ)
          rng := rng1
          events := Event.select i ids ::
            ids.map (Event.send i) ++
            arrival.map (Event.receive i) ++
            [Event.aggregate i
              (arrival.map (fun id => (cfg.localTrain id model).1)),
             Event.adopt i agg,
             Event.report i
               ((arrival.map (fun id => (cfg.localTrain id model).2)).sum
                 / (arrival.length : ℚ))] } := by
  obtain ⟨hlen, hndids, hmem⟩ := np_random_choice_ok _ _ _ _ _ hsel
  have hndarr : arrival.Nodup := (harr.nodup_iff).mpr hndids
  have hbound : ∀ id ∈ arrival, id < cfg.classes.length := fun id hid =>
    hmem id (harr.mem_iff.mp hid)
  have hlen2 : arrival.length = ids.length := harr.length_eq
  have hcol := collectLoop_complete cfg model hnd arrival [] [] ids.length
    hndarr hbound (by simp [dictKeys]) (by simp [dictKeys])
    (by simpa using hlen2)
  have harrne : arrival ≠ [] := by
    intro h0
    rw [h0] at harr
    exact hne (harr.symm.eq_nil)
  obtain ⟨agg, hagg⟩ := federated_averaging_ok
    (arrival.map (fun id => (cfg.localTrain id model).1))
    (by simpa using harrne)
  refine ⟨agg, hagg, ?_⟩
  unfold runRound
  rw [hsel]
  simp only
  rw [hcol]
  simp only [List.nil_append]
  rw [dictValues_map, dictValues_map, hagg]
  simp only
  have hrecv : (arrival.map (fun id => edgeDeviceReply cfg id model)).map
      (fun r => Event.receive i (class_to_idx cfg.classes r.name))
      = arrival.map (Event.receive i) := by
    rw [List.map_map]
    refine List.map_congr_left ?_
    intro id hid
    simp only [Function.comp_apply]
    rw [class_to_idx_reply cfg id model hnd (hbound id hid)]
  rw [hrecv]
  simp [List.length_map]

/-- Claim C1: within a round the coordinator keeps waiting on the
selected workers' channels until every selected identity has reported,
tolerating any arrival order.  For every permutation `arrival` of the
selected ids: the collect loop consumes exactly the arriving results and
stops with the guard satisfied precisely at the last one (leftover queue
empty); each result is recorded in `local_models` under the identity
carried in the result, not under its arrival or dispatch position; and
`fd.federated_averaging` is invoked with exactly the models received from
that round's selected workers (a permutation of the selected workers'
trained models).  The worker reply itself is spec-modelled
(`edgeDeviceReply`), since `models/federated.py` is not under `src/`. -/
theorem coordinator_collects_all_selected (cfg : FedConfig) (i : ℕ)
    (model : Model) (rng rng1 : Rng) (ids arrival : List ℕ)
    (hnd : cfg.classes.Nodup)
    (hsel : np_random_choice cfg.classes.length cfg.max_users_in_round rng
      = .ok (ids, rng1))
    (harr : arrival.Perm ids) (hne : ids ≠ []) :
    collectLoop cfg.classes ids.length
        (arrival.map (fun id => edgeDeviceReply cfg id model)) [] []
      = some (arrival.map (fun id => (id, (cfg.localTrain id model).1)),
              arrival.map (fun id => (id, (cfg.localTrain id model).2)), [])
    ∧ (∀ id ∈ ids,
        dictGet (arrival.map (fun id2 => (id2, (cfg.localTrain id2 model).1)))
            id
          = some (cfg.localTrain id model).1)
    ∧ (arrival.map (fun id => (cfg.localTrain id model).1)).Perm
        (ids.map (fun id => (cfg.localTrain id model).1))
    ∧ ∃ out, runRound cfg i arrival model rng = .ok out ∧
        Event.aggregate i
            (arrival.map (fun id => (cfg.localTrain id model).1))
          ∈ out.events := by
  obtain ⟨hlen, hndids, hmem⟩ := np_random_choice_ok _ _ _ _ _ hsel
  have hndarr : arrival.Nodup := (harr.nodup_iff).mpr hndids
  have hbound : ∀ id ∈ arrival, id < cfg.classes.length := fun id hid =>
    hmem id (harr.mem_iff.mp hid)
  have hcol := collectLoop_complete cfg model hnd arrival [] [] ids.length
    hndarr hbound (by simp [dictKeys]) (by simp [dictKeys])
    (by simpa using harr.length_eq)
  obtain ⟨agg, hagg, hrun⟩ :=
    runRound_ok cfg i model rng rng1 ids arrival hnd hsel harr hne
  refine ⟨by simpa using hcol, ?_, harr.map _, ⟨_, hrun, ?_⟩⟩
  · intro id hid
    exact dictGet_map_self _ arrival id (harr.mem_iff.mpr hid)
  · simp

/-- Witness for C1 at a concrete input: roster of 3 classes, quorum 2,
selection [2, 1], arrival in the opposite order [1, 2]. -/
theorem coordinator_collects_all_selected_witness :
    ∃ out, runRound testCfg 0 [1, 2] [1] [5, 1] = .ok out ∧
      Event.aggregate 0
          ([1, 2].map (fun id => (testCfg.localTrain id [1]).1))
        ∈ out.events :=
  (coordinator_collects_all_selected testCfg 0 [1] [5, 1] [] [2, 1] [1, 2]
    (by decide) (by rfl) (by decide) (by decide)).2.2.2

/-- Claim C6: at the end of every round the coordinator adopts the
aggregated model as the new current model (`model =
fd.federated_averaging(list(local_models.values()))`, main_nn.py line
118; `runRounds` feeds the round outcome's model to the next round), and
the loss it reports for the round equals the arithmetic mean of the loss
values of the round's received RoundResults
(`sum(list(local_losses.values())) / len(local_losses)`, line 120). -/
theorem round_adopts_aggregate_and_mean_loss (cfg : FedConfig) (i : ℕ)
    (model : Model) (rng rng1 : Rng) (ids arrival : List ℕ)
    (hnd : cfg.classes.Nodup)
    (hsel : np_random_choice cfg.classes.length cfg.max_users_in_round rng
      = .ok (ids, rng1))
    (harr : arrival.Perm ids) (hne : ids ≠ []) :
    ∃ out agg,
      runRound cfg i arrival model rng = .ok out ∧
      federated_averaging
          (arrival.map (fun id => (cfg.localTrain id model).1)) = .ok agg ∧
      out.model = agg ∧
      Event.adopt i agg ∈ out.events ∧
      out.loss = (arrival.map (fun id => (cfg.localTrain id model).2)).sum
        / (arrival.length : ℚ) ∧
      Event.report i out.loss ∈ out.events := by
  obtain ⟨agg, hagg, hrun⟩ :=
    runRound_ok cfg i model rng rng1 ids arrival hnd hsel harr hne
  refine ⟨_, agg, hrun, hagg, rfl, by simp, rfl, by simp⟩

/-- Witness for C6 at a concrete input. -/
theorem round_adopts_aggregate_and_mean_loss_witness :
    ∃ out agg,
      runRound testCfg 0 [1, 2] [1] [5, 1] = .ok out ∧
      federated_averaging
          ([1, 2].map (fun id => (testCfg.localTrain id [1]).1)) = .ok agg ∧
      out.model = agg ∧
      Event.adopt 0 agg ∈ out.events ∧
      out.loss = ([1, 2].map (fun id => (testCfg.localTrain id [1]).2)).sum
        / (([1, 2] : List ℕ).length : ℚ) ∧
      Event.report 0 out.loss ∈ out.events :=
  round_adopts_aggregate_and_mean_loss testCfg 0 [1] [5, 1] [] [2, 1] [1, 2]
    (by decide) (by rfl) (by decide) (by decide)

/-- Claim C9: in every round the current model is sent to exactly the
selected workers' channel endpoints, and a RoundResult is received from
exactly the selected workers: a worker not selected in the round receives
no message, and — per the spec-modelled worker loop, which only replies
to a model it received — sends no RoundResult for that round. -/
theorem dispatch_and_receive_frame (cfg : FedConfig) (i : ℕ)
    (model : Model) (rng rng1 : Rng) (ids arrival : List ℕ)
    (hnd : cfg.classes.Nodup)
    (hsel : np_random_choice cfg.classes.length cfg.max_users_in_round rng
      = .ok (ids, rng1))
    (harr : arrival.Perm ids) (hne : ids ≠ []) :
    ∃ out, runRound cfg i arrival model rng = .ok out ∧
      (∀ id, Event.send i id ∈ out.events ↔ id ∈ ids) ∧
      (∀ id, Event.receive i id ∈ out.events ↔ id ∈ ids) := by
  obtain ⟨agg, hagg, hrun⟩ :=
    runRound_ok cfg i model rng rng1 ids arrival hnd hsel harr hne
  refine ⟨_, hrun, ?_, ?_⟩
  · intro id
    simp
  · intro id
    simp [harr.mem_iff]

/-- Witness for C9 at a concrete input: workers 2 and 1 are selected and
exactly they are dispatched to and received from; worker 0 is not. -/
theorem dispatch_and_receive_frame_witness :
    ∃ out, runRound testCfg 0 [1, 2] [1] [5, 1] = .ok out ∧
      (∀ id, Event.send 0 id ∈ out.events ↔ id ∈ ([2, 1] : List ℕ)) ∧
      (∀ id, Event.receive 0 id ∈ out.events ↔ id ∈ ([2, 1] : List ℕ)) :=
  dispatch_and_receive_frame testCfg 0 [1] [5, 1] [] [2, 1] [1, 2]
    (by decide) (by rfl) (by decide) (by decide)

/-- The event trace of one successful round, split into its pieces:
selection, dispatch to the selected ids, receipt from `rids` (the
recorded identities, in arrival order), aggregation, adoption, loss
report. -/
def roundEvents (i : ℕ) (ids rids : List ℕ) (ms : List Model) (mm : Model)
    (lv : ℚ) : List Event :=
  Event.select i ids ::
    ids.map (Event.send i) ++ rids.map (Event.receive i) ++
    [Event.aggregate i ms, Event.adopt i mm, Event.report i lv]

lemma runRound_shape (cfg : FedConfig) (i : ℕ) (arrival : List ℕ)
    (model : Model) (rng : Rng) (out : RoundOutcome)
    (h : runRound cfg i arrival model rng = .ok out) :
    ∃ ids rng1 rids ms mm lv,
      np_random_choice cfg.classes.length cfg.max_users_in_round rng
        = .ok (ids, rng1) ∧
      out.rng = rng1 ∧
      out.events = roundEvents i ids rids ms mm lv := by
  unfold runRound at h
  cases hsel : np_random_choice cfg.classes.length cfg.max_users_in_round rng with
  | error e =>
      rw [hsel] at h
      exact absurd h (by simp)
  | ok p =>
      obtain ⟨ids, rng1⟩ := p
      rw [hsel] at h
      simp only at h
      cases hcol : collectLoop cfg.classes ids.length
          (arrival.map (fun id => edgeDeviceReply cfg id model)) [] [] with
      | none =>
          rw [hcol] at h
          exact absurd h (by simp)
      | some t =>
          obtain ⟨lm, ll, leftover⟩ := t
          rw [hcol] at h
          simp only at h
          cases hagg : federated_averaging (dictValues lm) with
          | error e =>
              rw [hagg] at h
              exact absurd h (by simp)
          | ok agg =>
              rw [hagg] at h
              simp only [Except.ok.injEq] at h
              refine ⟨ids, rng1,
                (arrival.map (fun id => edgeDeviceReply cfg id model)).map
                  (fun r => class_to_idx cfg.classes r.name),
                dictValues lm, agg, (dictValues ll).sum / (ll.length : ℚ),
                rfl, ?_, ?_⟩
              · rw [← h]
              · rw [← h]
                simp [roundEvents, List.map_map]

lemma countP_map_zero {β : Type} (p : Event → Bool) (f : β → Event)
    (l : List β) (h : ∀ x, p (f x) = false) : (l.map f).countP p = 0 :=
  List.countP_eq_zero.mpr (by
    intro a ha
    obtain ⟨x, _, rfl⟩ := List.mem_map.mp ha
    simp [h])

lemma roundEvents_round (i : ℕ) (ids rids : List ℕ) (ms : List Model)
    (mm : Model) (lv : ℚ) :
    ∀ ev ∈ roundEvents i ids rids ms mm lv, eventRound ev = some i := by
  intro ev hev
  simp only [roundEvents, List.mem_cons, List.mem_append, List.mem_map,
    List.not_mem_nil, or_false] at hev
  rcases hev with ((rfl | ⟨x, _, rfl⟩) | ⟨x, _, rfl⟩) | rfl | rfl | rfl <;> rfl

lemma roundEvents_countP_select (i j : ℕ) (ids rids : List ℕ)
    (ms : List Model) (mm : Model) (lv : ℚ) :
    (roundEvents i ids rids ms mm lv).countP (isSelect j)
      = if j = i then 1 else 0 := by
  have h1 : (ids.map (Event.send i)).countP (isSelect j) = 0 :=
    countP_map_zero _ _ _ (fun x => rfl)
  have h2 : (rids.map (Event.receive i)).countP (isSelect j) = 0 :=
    countP_map_zero _ _ _ (fun x => rfl)
  by_cases hji : j = i
  · subst hji
    simp [roundEvents, List.countP_cons, List.countP_append, h1, h2, isSelect,
      isAggregate, isAdopt]
  · have hij : ¬ i = j := fun hc => hji hc.symm
    simp [roundEvents, List.countP_cons, List.countP_append, h1, h2, isSelect,
      isAggregate, isAdopt, hij, hji]

lemma roundEvents_countP_aggregate (i j : ℕ) (ids rids : List ℕ)
    (ms : List Model) (mm : Model) (lv : ℚ) :
    (roundEvents i ids rids ms mm lv).countP (isAggregate j)
      = if j = i then 1 else 0 := by
  have h1 : (ids.map (Event.send i)).countP (isAggregate j) = 0 :=
    countP_map_zero _ _ _ (fun x => rfl)
  have h2 : (rids.map (Event.receive i)).countP (isAggregate j) = 0 :=
    countP_map_zero _ _ _ (fun x => rfl)
  by_cases hji : j = i
  · subst hji
    simp [roundEvents, List.countP_cons, List.countP_append, h1, h2, isAggregate]
  · have hij : ¬ i = j := fun hc => hji hc.symm
    simp [roundEvents, List.countP_cons, List.countP_append, h1, h2,
      isAggregate, hij, hji]

lemma roundEvents_countP_adopt (i j : ℕ) (ids rids : List ℕ)
    (ms : List Model) (mm : Model) (lv : ℚ) :
    (roundEvents i ids rids ms mm lv).countP (isAdopt j)
      = if j = i then 1 else 0 := by
  have h1 : (ids.map (Event.send i)).countP (isAdopt j) = 0 :=
    countP_map_zero _ _ _ (fun x => rfl)
  have h2 : (rids.map (Event.receive i)).countP (isAdopt j) = 0 :=
    countP_map_zero _ _ _ (fun x => rfl)
  by_cases hji : j = i
  · subst hji
    simp [roundEvents, List.countP_cons, List.countP_append, h1, h2, isAdopt]
  · have hij : ¬ i = j := fun hc => hji hc.symm
    simp [roundEvents, List.countP_cons, List.countP_append, h1, h2, isAdopt,
      hij, hji]

lemma eventPhase_le (ev : Event) : eventPhase ev ≤ 5 := by
  cases ev <;> simp [eventPhase]

lemma roundEvents_pairwise_phase (i : ℕ) (ids rids : List ℕ)
    (ms : List Model) (mm : Model) (lv : ℚ) :
    (roundEvents i ids rids ms mm lv).Pairwise
      (fun a b => eventPhase a ≤ eventPhase b) := by
  unfold roundEvents
  rw [List.pairwise_append]
  refine ⟨?_, ?_, ?_⟩
  · rw [List.pairwise_append]
    refine ⟨?_, ?_, ?_⟩
    · rw [List.pairwise_cons]
      constructor
      · intro b hb
        obtain ⟨x, _, rfl⟩ := List.mem_map.mp hb
        show eventPhase (Event.select i ids) ≤ eventPhase (Event.send i x)
        simp [eventPhase]
      · refine List.pairwise_of_forall_mem_list ?_
        intro a ha b hb
        obtain ⟨x, _, rfl⟩ := List.mem_map.mp ha
        obtain ⟨y, _, rfl⟩ := List.mem_map.mp hb
        simp [eventPhase]
    · refine List.pairwise_of_forall_mem_list ?_
      intro a ha b hb
      obtain ⟨x, _, rfl⟩ := List.mem_map.mp ha
      obtain ⟨y, _, rfl⟩ := List.mem_map.mp hb
      simp [eventPhase]
    · intro a ha b hb
      obtain ⟨y, _, rfl⟩ := List.mem_map.mp hb
      have h1 : eventPhase a ≤ 2 := by
        rcases List.mem_cons.mp ha with rfl | ha2
        · simp [eventPhase]
        · obtain ⟨x, _, rfl⟩ := List.mem_map.mp ha2
          simp [eventPhase]
      have h2 : eventPhase (Event.receive i y) = 2 := rfl
      omega
  · simp [List.pairwise_cons, eventPhase]
  · intro a ha b hb
    have h2 : 3 ≤ eventPhase b := by
      simp only [List.mem_cons, List.not_mem_nil, or_false] at hb
      rcases hb with rfl | rfl | rfl <;> simp [eventPhase]
    have h1 : eventPhase a ≤ 2 := by
      rcases List.mem_append.mp ha with ha2 | ha2
      · rcases List.mem_cons.mp ha2 with rfl | ha3
        · simp [eventPhase]
        · obtain ⟨x, _, rfl⟩ := List.mem_map.mp ha3
          simp [eventPhase]
      · obtain ⟨x, _, rfl⟩ := List.mem_map.mp ha2
        simp [eventPhase]
    omega

lemma roundEvents_select_eq (i j : ℕ) (xs ids rids : List ℕ)
    (ms : List Model) (mm : Model) (lv : ℚ)
    (h : Event.select j xs ∈ roundEvents i ids rids ms mm lv) :
    j = i ∧ xs = ids := by
  simpa [roundEvents] using h

lemma eventKey_of_round (E : ℕ) (ev : Event) (i : ℕ)
    (h : eventRound ev = some i) :
    eventKey E ev = 6 * i + eventPhase ev := by
  simp [eventKey, h]

lemma runRounds_shape (cfg : FedConfig) (arrivals : ℕ → List ℕ) :
    ∀ (n e : ℕ) (model : Model) (rng : Rng) (out : RunOutcome),
      runRounds cfg arrivals n e model rng = .ok out →
      (∀ ev ∈ out.events, ∃ i, eventRound ev = some i ∧ e ≤ i ∧ i < e + n) ∧
      (∀ j, out.events.countP (isSelect j)
        = if e ≤ j ∧ j < e + n then 1 else 0) ∧
      (∀ j, out.events.countP (isAggregate j)
        = if e ≤ j ∧ j < e + n then 1 else 0) ∧
      (∀ j, out.events.countP (isAdopt j)
        = if e ≤ j ∧ j < e + n then 1 else 0) ∧
      (∀ E, out.events.Pairwise (fun a b => eventKey E a ≤ eventKey E b)) ∧
      (∀ j xs, Event.select j xs ∈ out.events →
        xs.Nodup ∧ ∀ x ∈ xs, x < cfg.classes.length) := by
  intro n
  induction n with
  | zero =>
      intro e model rng out h
      simp only [runRounds, Except.ok.injEq] at h
      subst h
      refine ⟨?_, ?_, ?_, ?_, ?_, ?_⟩ <;>
        simp <;> intro j <;> split_ifs <;> omega
  | succ n ih =>
      intro e model rng out h
      unfold runRounds at h
      cases hr : runRound cfg e (arrivals e) model rng with
      | error err =>
          rw [hr] at h
          exact absurd h (by simp)
      | ok r =>
          rw [hr] at h
          simp only at h
          cases hrest : runRounds cfg arrivals n (e + 1) r.model r.rng with
          | error err =>
              rw [hrest] at h
              exact absurd h (by simp)
          | ok rest =>
              rw [hrest] at h
              simp only [Except.ok.injEq] at h
              have hevents2 : out.events = r.events ++ rest.events := by
                rw [← h]
              obtain ⟨ids, rng1, rids, ms, mm, lv, hsel, hrng, hevents⟩ :=
                runRound_shape cfg e (arrivals e) model rng r hr
              obtain ⟨ih1, ih2, ih3, ih4, ih5, ih6⟩ :=
                ih (e + 1) r.model r.rng rest hrest
              obtain ⟨hlen, hndids, hmemids⟩ :=
                np_random_choice_ok _ _ _ _ _ hsel
              refine ⟨?_, ?_, ?_, ?_, ?_, ?_⟩
              · intro ev hev
                rw [hevents2] at hev
                rcases List.mem_append.mp hev with hev1 | hev1
                · rw [hevents] at hev1
                  exact ⟨e, roundEvents_round _ _ _ _ _ _ ev hev1,
                    le_refl e, by omega⟩
                · obtain ⟨i, hi, hle, hlt⟩ := ih1 ev hev1
                  exact ⟨i, hi, by omega, by omega⟩
              · intro j
                rw [hevents2, List.countP_append, hevents,
                  roundEvents_countP_select, ih2 j]
                split_ifs <;> omega
              · intro j
                rw [hevents2, List.countP_append, hevents,
                  roundEvents_countP_aggregate, ih3 j]
                split_ifs <;> omega
              · intro j
                rw [hevents2, List.countP_append, hevents,
                  roundEvents_countP_adopt, ih4 j]
                split_ifs <;> omega
              · intro E
                rw [hevents2, List.pairwise_append]
                refine ⟨?_, ih5 E, ?_⟩
                · rw [hevents]
                  refine List.Pairwise.imp_of_mem ?_
                    (roundEvents_pairwise_phase e ids rids ms mm lv)
                  intro a b ha hb hab
                  rw [eventKey_of_round E a e
                      (roundEvents_round _ _ _ _ _ _ a ha),
                    eventKey_of_round E b e
                      (roundEvents_round _ _ _ _ _ _ b hb)]
                  omega
                · intro a ha b hb
                  rw [hevents] at ha
                  have hra := roundEvents_round _ _ _ _ _ _ a ha
                  obtain ⟨i, hrb, hle, _⟩ := ih1 b hb
                  rw [eventKey_of_round E a e hra,
                    eventKey_of_round E b i hrb]
                  have := eventPhase_le a
                  omega
              · intro j xs hx
                rw [hevents2] at hx
                rcases List.mem_append.mp hx with hx1 | hx1
                · rw [hevents] at hx1
                  obtain ⟨hj, hxs⟩ :=
                    roundEvents_select_eq e j xs ids rids ms mm lv hx1
                  subst hxs
                  exact ⟨hndids, hmemids⟩
                · exact ih6 j xs hx1

/-- Claim C5: the round loop executes exactly `num_global_epochs` rounds,
each performing selection, dispatch, collection, aggregation, adoption
and loss report in that order, with strict sequencing across rounds.
Formally, in the trace of a completed run: every round index `j <
num_global_epochs` has exactly one selection, one aggregation and one
adoption (and no other round index has any), and the trace is sorted by
the linear key `eventKey` — so within a round the phases occur in order
select, send, receive, aggregate, adopt, report, and every event of round
N (aggregation and adoption included) precedes every event of round N+1:
no round overlap or pipelining. -/
theorem round_loop_structure (cfg : FedConfig) (arrivals : ℕ → List ℕ)
    (model0 : Model) (rng : Rng) (m : Model) (tr : List Event)
    (h : train_federated cfg arrivals model0 rng = .ok (m, tr)) :
    (∀ j, tr.countP (isSelect j)
      = if j < cfg.num_global_epochs then 1 else 0) ∧
    (∀ j, tr.countP (isAggregate j)
      = if j < cfg.num_global_epochs then 1 else 0) ∧
    (∀ j, tr.countP (isAdopt j)
      = if j < cfg.num_global_epochs then 1 else 0) ∧
    tr.Pairwise (fun a b =>
      eventKey cfg.num_global_epochs a ≤ eventKey cfg.num_global_epochs b) := by
  unfold train_federated at h
  cases hrr : runRounds cfg arrivals cfg.num_global_epochs 0 model0 rng with
  | error e =>
      rw [hrr] at h
      exact absurd h (by simp)
  | ok out =>
      rw [hrr] at h
      simp only [Except.ok.injEq, Prod.mk.injEq] at h
      obtain ⟨hm, htr⟩ := h
      obtain ⟨h1, h2, h3, h4, h5, h6⟩ :=
        runRounds_shape cfg arrivals _ 0 model0 rng out hrr
      have hterm : ∀ p : Event → Bool,
          (∀ x, p (Event.terminate x) = false) →
          (shutdownEvents cfg).countP p = 0 := by
        intro p hp
        unfold shutdownEvents
        exact countP_map_zero _ _ _ hp
      refine ⟨?_, ?_, ?_, ?_⟩
      · intro j
        rw [← htr, List.countP_append, h2 j,
          hterm (isSelect j) (fun x => rfl)]
        split_ifs <;> omega
      · intro j
        rw [← htr, List.countP_append, h3 j,
          hterm (isAggregate j) (fun x => rfl)]
        split_ifs <;> omega
      · intro j
        rw [← htr, List.countP_append, h4 j,
          hterm (isAdopt j) (fun x => rfl)]
        split_ifs <;> omega
      · rw [← htr, List.pairwise_append]
        refine ⟨h5 _, ?_, ?_⟩
        · refine List.pairwise_of_forall_mem_list ?_
          intro a ha b hb
          unfold shutdownEvents at ha hb
          obtain ⟨x, _, rfl⟩ := List.mem_map.mp ha
          obtain ⟨y, _, rfl⟩ := List.mem_map.mp hb
          simp [eventKey, eventRound]
        · intro a ha b hb
          obtain ⟨i, hra, _, hlt⟩ := h1 a ha
          unfold shutdownEvents at hb
          obtain ⟨y, _, rfl⟩ := List.mem_map.mp hb
          rw [eventKey_of_round _ a i hra]
          have hb2 : eventKey cfg.num_global_epochs (Event.terminate y)
              = 6 * cfg.num_global_epochs := rfl
          rw [hb2]
          have := eventPhase_le a
          omega

/-- Per-round arrival orders matching the selections of the two-round
witness run: round 0 selects [2, 1], round 1 selects [0, 1]. -/
def testArrivals : ℕ → List ℕ := fun i => if i = 0 then [1, 2] else [0, 1]

/-- Witness for C5 at a concrete input: a completed two-round run. -/
theorem round_loop_structure_witness :
    ∃ r, train_federated testCfg testArrivals [1] [5, 1, 0, 0] = .ok r ∧
      (∀ j, r.2.countP (isSelect j)
        = if j < testCfg.num_global_epochs then 1 else 0) :=
  ⟨_, rfl,
    (round_loop_structure testCfg testArrivals [1] [5, 1, 0, 0] _ _ rfl).1⟩

/-- Claim C7, counterexample to the claim as stated: the claim asserts
that after the final round the coordinator waits for every worker to
finish (process join).  In this completed one-round run the coordinator
emits a terminate signal for every roster member (workers 0 and 1,
including worker 1 which was never selected) but never joins any worker:
`train_federated` only calls `process.terminate()` (main_nn.py line 125),
which sends the termination signal and returns immediately, so nothing
guarantees the workers have stopped running when `train_federated`
returns. -/
theorem shutdown_no_join_counterexample :
    ∃ r, train_federated twoClassCfg (fun _ => [0]) [1] [0] = .ok r ∧
      Event.terminate 0 ∈ r.2 ∧ Event.terminate 1 ∈ r.2 ∧
      Event.join 0 ∉ r.2 ∧ Event.join 1 ∉ r.2 :=
  ⟨_, rfl, by decide, by decide, by decide, by decide⟩

/-- Claim C7 as amended: after the final round the coordinator signals
every worker in the full original roster to stop — including workers that
were never selected in any round — in roster order; it does not join any
worker (no `process.join()` call exists in `train_federated`), so it does
not wait for workers to finish and they may still be running when
`train_federated` returns. -/
theorem shutdown_terminates_all_without_join (cfg : FedConfig)
    (arrivals : ℕ → List ℕ) (model0 : Model) (rng : Rng) (m : Model)
    (tr : List Event)
    (h : train_federated cfg arrivals model0 rng = .ok (m, tr)) :
    (∀ id, id < cfg.classes.length → Event.terminate id ∈ tr) ∧
    (∀ id, Event.join id ∉ tr) := by
  unfold train_federated at h
  cases hrr : runRounds cfg arrivals cfg.num_global_epochs 0 model0 rng with
  | error e =>
      rw [hrr] at h
      exact absurd h (by simp)
  | ok out =>
      rw [hrr] at h
      simp only [Except.ok.injEq, Prod.mk.injEq] at h
      obtain ⟨hm, htr⟩ := h
      obtain ⟨h1, _, _, _, _, _⟩ :=
        runRounds_shape cfg arrivals _ 0 model0 rng out hrr
      constructor
      · intro id hid
        rw [← htr]
        refine List.mem_append.mpr (Or.inr ?_)
        unfold shutdownEvents
        rw [dictKeys_setup]
        exact List.mem_map.mpr ⟨id, List.mem_range.mpr hid, rfl⟩
      · intro id hjoin
        rw [← htr] at hjoin
        rcases List.mem_append.mp hjoin with hj | hj
        · obtain ⟨i, hri, _, _⟩ := h1 _ hj
          exact absurd hri (by simp [eventRound])
        · unfold shutdownEvents at hj
          obtain ⟨x, _, hx⟩ := List.mem_map.mp hj
          exact absurd hx (by simp)

/-- Witness for the amended C7 at a concrete input: the two-round run of
`testCfg`, whose roster has 3 workers while each round selects only 2. -/
theorem shutdown_terminates_all_without_join_witness :
    ∃ r, train_federated testCfg testArrivals [1] [5, 1, 0, 0] = .ok r ∧
      (∀ id, id < testCfg.classes.length → Event.terminate id ∈ r.2) ∧
      (∀ id, Event.join id ∉ r.2) :=
  ⟨_, rfl,
    shutdown_terminates_all_without_join testCfg testArrivals [1]
      [5, 1, 0, 0] _ _ rfl⟩

lemma map_getD_range (l : List String) :
    (List.range l.length).map (fun i => l.getD i defaultName) = l := by
  apply List.ext_getElem
  · simp
  · intro i h1 h2
    have h3 : i < l.length := h2
    simp only [List.getElem_map, List.getElem_range]
    rw [List.getD_eq_getElem _ _ h3]

/-- Claim C8: before round 1 the coordinator creates exactly one worker
per dataset class — the roster `device_connections` has one entry per
class, keyed by the class index, each bound to its own dataset partition
(`subsets[device_id]`) and its own freshly created channel pair
(`Pipe()` per iteration), and started — and the roster's key set is never
mutated for the rest of the run: the source only reads
`device_connections` after the setup loop, every per-round selection is a
subset of the fixed key set, and the shutdown loop iterates exactly the
original key set. -/
theorem roster_established_once (cfg : FedConfig) (arrivals : ℕ → List ℕ)
    (model0 : Model) (rng : Rng) (m : Model) (tr : List Event)
    (hnd : cfg.classes.Nodup)
    (h : train_federated cfg arrivals model0 rng = .ok (m, tr)) :
    dictKeys (setupConnections cfg.classes) = List.range cfg.classes.length ∧
    (setupConnections cfg.classes).length = cfg.classes.length ∧
    (∀ p ∈ setupConnections cfg.classes,
      p.2.name = cfg.classes.getD p.1 defaultName ∧
      p.2.channel = p.1 ∧ p.2.partition = p.1 ∧ p.2.started = true) ∧
    ((setupConnections cfg.classes).map (fun p => p.2.channel)).Nodup ∧
    ((setupConnections cfg.classes).map (fun p => p.2.partition)).Nodup ∧
    ((setupConnections cfg.classes).map (fun p => p.2.name)).Nodup ∧
    (∀ j xs, Event.select j xs ∈ tr →
      ∀ x ∈ xs, x ∈ dictKeys (setupConnections cfg.classes)) ∧
    shutdownEvents cfg
      = (dictKeys (setupConnections cfg.classes)).map Event.terminate := by
  unfold train_federated at h
  cases hrr : runRounds cfg arrivals cfg.num_global_epochs 0 model0 rng with
  | error e =>
      rw [hrr] at h
      exact absurd h (by simp)
  | ok out =>
      rw [hrr] at h
      simp only [Except.ok.injEq, Prod.mk.injEq] at h
      obtain ⟨hm, htr⟩ := h
      obtain ⟨_, _, _, _, _, h6⟩ :=
        runRounds_shape cfg arrivals _ 0 model0 rng out hrr
      have hch : ((setupConnections cfg.classes).map (fun p => p.2.channel))
          = List.range cfg.classes.length := by
        simp [setupConnections, List.map_map, Function.comp_def]
      have hpart : ((setupConnections cfg.classes).map
            (fun p => p.2.partition))
          = List.range cfg.classes.length := by
        simp [setupConnections, List.map_map, Function.comp_def]
      have hnames : ((setupConnections cfg.classes).map (fun p => p.2.name))
          = cfg.classes := by
        simp only [setupConnections, List.map_map, Function.comp_def]
        exact map_getD_range cfg.classes
      refine ⟨dictKeys_setup _, by simp [setupConnections], ?_, ?_, ?_, ?_,
        ?_, rfl⟩
      · intro p hp
        obtain ⟨i, _, rfl⟩ := List.mem_map.mp hp
        exact ⟨rfl, rfl, rfl, rfl⟩
      · rw [hch]
        exact List.nodup_range _
      · rw [hpart]
        exact List.nodup_range _
      · rw [hnames]
        exact hnd
      · intro j xs hx x hxmem
        rw [dictKeys_setup]
        rw [← htr] at hx
        rcases List.mem_append.mp hx with hx1 | hx1
        · obtain ⟨_, hbound⟩ := h6 j xs hx1
          exact List.mem_range.mpr (hbound x hxmem)
        · unfold shutdownEvents at hx1
          obtain ⟨y, _, hy⟩ := List.mem_map.mp hx1
          exact absurd hy (by simp)

/-- Witness for C8 at a concrete input: the two-round run of `testCfg`. -/
theorem roster_established_once_witness :
    ∃ r, train_federated testCfg testArrivals [1] [5, 1, 0, 0] = .ok r ∧
      dictKeys (setupConnections testCfg.classes)
        = List.range testCfg.classes.length ∧
      (∀ j xs, Event.select j xs ∈ r.2 →
        ∀ x ∈ xs, x ∈ dictKeys (setupConnections testCfg.classes)) :=
  ⟨_, rfl,
    (roster_established_once testCfg testArrivals [1] [5, 1, 0, 0] _ _
      (by decide) rfl).1,
    (roster_established_once testCfg testArrivals [1] [5, 1, 0, 0] _ _
      (by decide) rfl).2.2.2.2.2.2.1⟩

end FedFaceId
